import Mathlib

/-!
Shallow embedding of `timeline_generator.py` (git-timeline-generator).

The embedded functions are `summarize_commit_message`, `is_active`,
`pick_other_dev` and `analyze_repo` from `src/timeline_generator.py`.
Python `datetime` instants are modelled as POSIX timestamps in seconds
(`Int`); `timedelta(days = d)` is adding `d * 86400` seconds and
`(a - b).days` is floor division of the difference by 86400, matching
Python's `timedelta.days`.  The module-level configuration globals are
gathered into an explicit `Config` record whose default values are those
of `default_config` in the source.  The Gemini call and `random.choice`
are external effects: they are modelled by oracles — `llm : String →
Option String` (`none` models the call raising an exception, `some txt`
models a response with text `txt`) and `rand : Nat → Nat` (the `k`-th
call of `random.choice xs` returns element `rand k % xs.length`, so every
possible run corresponds to some oracle).  Python's `dict` / `defaultdict`
keyed by developer name is modelled as an insertion-ordered association
list.
-/

namespace TimelineGen

/-- An instant: POSIX timestamp in seconds, as produced by
`datetime.fromtimestamp(commit.committed_date)`. -/
abbrev Instant := Int

def secondsPerDay : Int := 86400

/-- Python `d + timedelta(days = offset)`. -/
def addDays (t : Instant) (offset : Int) : Instant := t + offset * secondsPerDay

/-- Python `(a - b).days`: floor division of the difference (in seconds)
by 86400, which floors toward minus infinity exactly like `Int.fdiv`. -/
def daysBetween (a b : Instant) : Int := Int.fdiv (a - b) secondsPerDay

/-- The fields of a git commit that `analyze_repo` reads. -/
structure Commit where
  author_name : String
  committed_date : Instant
  lines_changed : Int
  message : String
  hexsha : String
  deriving Repr, DecidableEq

/-- `commit.hexsha[:7]`. -/
def short_id (c : Commit) : String := c.hexsha.take 7

/-- One value of the `dev_activity` defaultdict:
`{"first_commit": None, "last_commit": None, "last_commit_id": None}`. -/
structure DevRecord where
  first_commit : Option Instant := none
  last_commit : Option Instant := none
  last_commit_id : Option String := none
  deriving Repr, DecidableEq

/-- The `dev_activity` dict: insertion-ordered association list keyed by
author name. -/
abbrev ActivityLog := List (String × DevRecord)

/-- Dict lookup `activity_log[name]` (as an `Option`, `none` = key absent). -/
def lookupDev (log : ActivityLog) (name : String) : Option DevRecord :=
  (log.find? (fun p => p.1 == name)).map (fun p => p.2)

/-- Dict store `activity_log[name] = r`: overwrite in place if the key is
present, else append at the end (Python dicts preserve insertion order). -/
def setRecord : ActivityLog → String → DevRecord → ActivityLog
  | [], name, r => [(name, r)]
  | p :: rest, name, r =>
      if p.1 == name then (name, r) :: rest else p :: setRecord rest name r

/-- The module configuration globals read by the embedded functions. -/
structure Config where
  large_commit_line_threshold : Int
  commit_message_summary_threshold : Nat
  use_llm_summarizer : Bool
  developer_leave_inactivity_days : Int
  feature_event_offsets : List (String × Int)
  bug_event_offsets : List (String × Int)

/-- The `default_config` dict of the source (the fields the core uses). -/
def default_config : Config :=
  { large_commit_line_threshold := 100,
    commit_message_summary_threshold := 50,
    use_llm_summarizer := false,
    developer_leave_inactivity_days := 30,
    feature_event_offsets :=
      [("FEATURE_PLAN", -5), ("FEATURE_DESIGN", -4), ("FEATURE_DESIGN_REVIEW", -3),
       ("FEATURE_PR_OPEN", -2), ("FEATURE_PR_REVIEW", -1), ("FEATURE_PR_CLOSE", 0)],
    bug_event_offsets :=
      [("BUG_PR_OPEN", -3), ("BUG_PR_REVIEW", -2), ("BUG_PR_CLOSE", -1), ("BUG_CLOSE", 0)] }

/-- Python `str.strip()`: drop leading and trailing whitespace.  Defined on
the character list so that it is kernel-reducible on literals. -/
def pyStrip (s : String) : String :=
  String.mk
    ((s.data.dropWhile Char.isWhitespace).reverse.dropWhile Char.isWhitespace).reverse

/-- The prompt string built in `summarize_commit_message`. -/
def llm_prompt (stripped_message : String) : String :=
  "Summarize the following commit message into a short feature or bugfix title. Please do not use any Markdown formatting like **bold** or *italic*:\n\n\"" ++ stripped_message ++ "\""

/-- `summarize_commit_message` from the source.  `llm` is the oracle for
`gemini_model.generate_content(...).text`: `none` models the call raising
(the `except` branch), `some txt` a response with text `txt`. -/
def summarize_commit_message (cfg : Config) (llm : String → Option String)
    (commit_message : String) : String :=
  let length := (pyStrip commit_message).length
  if length ≤ cfg.commit_message_summary_threshold then
    pyStrip commit_message
  else if cfg.use_llm_summarizer then
    match llm (llm_prompt (pyStrip commit_message)) with
    | some response_text =>
        let summary := pyStrip response_text
        if summary == "" then commit_message.take cfg.commit_message_summary_threshold ++ "..."
        else summary
    | none => commit_message.take cfg.commit_message_summary_threshold ++ "..."
  else
    commit_message.take cfg.commit_message_summary_threshold ++ "..."

/-- `is_active` from the source. -/
def is_active (dev_name : String) (as_of_day : Instant) (activity_log : ActivityLog)
    (threshold_days : Int) : Bool :=
  match lookupDev activity_log dev_name with
  | none => false
  | some r =>
      match r.last_commit with
      | none => false
      | some last_commit => daysBetween as_of_day last_commit ≤ threshold_days

/-- The `active_devs` list built inside `pick_other_dev`. -/
def active_devs (devs : List String) (exclude : List String) (as_of_day : Instant)
    (dev_activity : ActivityLog) (threshold_days : Int) : List String :=
  devs.filter (fun d => !exclude.contains d && is_active d as_of_day dev_activity threshold_days)

/-- `pick_other_dev` from the source.  `choice` stands for the draw of
`random.choice`: when `active_devs` is non-empty the chosen element is the
one at index `choice % length` (every possible random outcome is reached by
some `choice`).  A `none` result models the `IndexError` that `exclude[0]`
raises when both `active_devs` and `exclude` are empty. -/
def pick_other_dev (devs : List String) (exclude : List String) (as_of_day : Instant)
    (dev_activity : ActivityLog) (threshold_days : Int) (choice : Nat) : Option String :=
  let active := active_devs devs exclude as_of_day dev_activity threshold_days
  if active.isEmpty then exclude.head?
  else active.get? (choice % active.length)

/-- `pick_other_dev` as used inside `analyze_repo`: every call site there
passes a non-empty `exclude` list, so the failure path of
`pick_other_dev` cannot occur and the `""` default is never used
(see `pick_other_dev_isSome`). -/
def pickD (devs : List String) (exclude : List String) (as_of_day : Instant)
    (dev_activity : ActivityLog) (threshold_days : Int) (choice : Nat) : String :=
  (pick_other_dev devs exclude as_of_day dev_activity threshold_days choice).getD ""

/-- One timeline event: the Python dicts appended to `timeline_events`.
Each dict-key that only some events carry becomes an `Option` field. -/
structure Event where
  event : String
  date : Instant
  developer : Option String := none
  feature : Option String := none
  bug : Option String := none
  author : Option String := none
  commit_id : Option String := none
  source_commit_id : Option String := none
  last_commit_date : Option Instant := none
  last_commit_id : Option String := none
  deriving Repr, DecidableEq

/-- The `role_map` dict of the feature branch. -/
def feature_role_map (proposer planner designer reviewer : String) : List (String × String) :=
  [("FEATURE_PLAN", planner),
   ("FEATURE_DESIGN", designer),
   ("FEATURE_DESIGN_REVIEW", reviewer),
   ("FEATURE_PR_OPEN", proposer),
   ("FEATURE_PR_REVIEW", reviewer),
   ("FEATURE_PR_CLOSE", proposer)]

/-- Python `m.get(k, dflt)` on a string-valued dict. -/
def dictGetStr (m : List (String × String)) (k dflt : String) : String :=
  ((m.find? (fun p => p.1 == k)).map (fun p => p.2)).getD dflt

/-- Python `m.get(k, dflt)` on an int-valued dict
(`FEATURE_OFFSETS.get("FEATURE_PR_OPEN", 0)`). -/
def dictGetInt (m : List (String × Int)) (k : String) (dflt : Int) : Int :=
  ((m.find? (fun p => p.1 == k)).map (fun p => p.2)).getD dflt

/-- Python `"REVIEW" in event_name` (substring test): splitting on a
non-empty pattern yields more than one piece iff the pattern occurs. -/
def is_review_stage (event_name : String) : Bool :=
  (event_name.splitOn "REVIEW").length != 1

/-- Loop-carried state of `analyze_repo`: the `dev_activity` dict plus the
index of the next `random.choice` draw. -/
structure LoopState where
  dev_activity : ActivityLog
  rand_ctr : Nat
  deriving Repr

def initState : LoopState := { dev_activity := [], rand_ctr := 0 }

/-- The `DEV_JOIN` event appended on an author's first commit. -/
def join_event (c : Commit) : Event :=
  { event := "DEV_JOIN", date := c.committed_date, developer := some c.author_name }

/-- The feature branch's `planner = pick_other_dev(all_devs, [proposer], ...)`:
`log` is the updated `dev_activity` dict, `ctr` the index of the first
`random.choice` draw of this commit. -/
def plannerOf (cfg : Config) (rand : Nat → Nat) (ctr : Nat) (log : ActivityLog)
    (c : Commit) : String :=
  pickD (log.map (fun p => p.1)) [c.author_name] c.committed_date log
    cfg.developer_leave_inactivity_days (rand ctr)

/-- The feature branch's `designer = pick_other_dev(all_devs, [proposer, planner], ...)`. -/
def designerOf (cfg : Config) (rand : Nat → Nat) (ctr : Nat) (log : ActivityLog)
    (c : Commit) : String :=
  pickD (log.map (fun p => p.1)) [c.author_name, plannerOf cfg rand ctr log c]
    c.committed_date log cfg.developer_leave_inactivity_days (rand (ctr + 1))

/-- The feature branch's
`reviewer = pick_other_dev(all_devs, [proposer, planner, designer], ...)`. -/
def reviewerOf (cfg : Config) (rand : Nat → Nat) (ctr : Nat) (log : ActivityLog)
    (c : Commit) : String :=
  pickD (log.map (fun p => p.1))
    [c.author_name, plannerOf cfg rand ctr log c, designerOf cfg rand ctr log c]
    c.committed_date log cfg.developer_leave_inactivity_days (rand (ctr + 2))

/-- The bug branch's `reviewer = pick_other_dev(all_devs, [fixer], ...)`. -/
def bugReviewerOf (cfg : Config) (rand : Nat → Nat) (ctr : Nat) (log : ActivityLog)
    (c : Commit) : String :=
  pickD (log.map (fun p => p.1)) [c.author_name] c.committed_date log
    cfg.developer_leave_inactivity_days (rand ctr)

/-- The classification half of the loop body of `analyze_repo`: everything
after `dev_activity` has been updated for the current commit.  `log` is the
updated dict, `ctr` the index of the next `random.choice` draw.  Returns the
events appended for this commit after the optional `DEV_JOIN`, in order. -/
def branch_events (cfg : Config) (llm : String → Option String) (rand : Nat → Nat)
    (ctr : Nat) (log : ActivityLog) (c : Commit) : List Event :=
  let author := c.author_name
  let commit_date := c.committed_date
  let summary := summarize_commit_message cfg llm (pyStrip c.message)
  if c.lines_changed ≥ cfg.large_commit_line_threshold then
    let feature_id := summary
    let proposer := author
    let role_map := feature_role_map proposer (plannerOf cfg rand ctr log c)
      (designerOf cfg rand ctr log c) (reviewerOf cfg rand ctr log c)
    let sub_events := cfg.feature_event_offsets.map (fun p =>
      ({ event := p.1,
         date := addDays commit_date p.2,
         developer := some (dictGetStr role_map p.1 proposer),
         feature := some feature_id,
         source_commit_id := some (short_id c) } : Event))
    let propose : Event :=
      { event := "FEATURE_PROPOSE",
        date := addDays commit_date (dictGetInt cfg.feature_event_offsets "FEATURE_PR_OPEN" 0),
        feature := some feature_id,
        author := some author,
        commit_id := some (short_id c),
        source_commit_id := some (short_id c) }
    sub_events ++ [propose]
  else
    let bug_id := summary
    let fixer := author
    let reviewer := bugReviewerOf cfg rand ctr log c
    let bug_open : Event :=
      { event := "BUG_OPEN",
        date := commit_date,
        bug := some bug_id,
        author := some author,
        source_commit_id := some (short_id c) }
    let sub_events := cfg.bug_event_offsets.map (fun p =>
      ({ event := p.1,
         date := addDays commit_date p.2,
         developer := some (if is_review_stage p.1 then reviewer else fixer),
         bug := some bug_id,
         source_commit_id := some (short_id c) } : Event))
    [bug_open] ++ sub_events

/-- The body of the `for idx, commit in enumerate(commits, 1)` loop of
`analyze_repo`: emits the `DEV_JOIN` on an author's first commit, stamps
`first_commit` (first time only) and overwrites `last_commit` /
`last_commit_id`, then classifies the commit and emits the branch events.
The feature branch consumes three `random.choice` draws, the bug branch
one. -/
def process_commit (cfg : Config) (llm : String → Option String) (rand : Nat → Nat)
    (st : LoopState) (c : Commit) : LoopState × List Event :=
  let author := c.author_name
  let r0 := (lookupDev st.dev_activity author).getD {}
  let join_events : List Event :=
    if r0.first_commit = none then [join_event c] else []
  let r1 := if r0.first_commit = none then { r0 with first_commit := some c.committed_date } else r0
  let r2 := { r1 with last_commit := some c.committed_date, last_commit_id := some (short_id c) }
  let log := setRecord st.dev_activity author r2
  ({ dev_activity := log,
     rand_ctr := st.rand_ctr +
       (if c.lines_changed ≥ cfg.large_commit_line_threshold then 3 else 1) },
   join_events ++ branch_events cfg llm rand st.rand_ctr log c)

/-- The commit loop of `analyze_repo`, accumulating `timeline_events`. -/
def runLoop (cfg : Config) (llm : String → Option String) (rand : Nat → Nat) :
    LoopState → List Event → List Commit → LoopState × List Event
  | st, evs, [] => (st, evs)
  | st, evs, c :: rest =>
      let out := process_commit cfg llm rand st c
      runLoop cfg llm rand out.1 (evs ++ out.2) rest

/-- One `DEV_LEAVE` event of the trailing loop of `analyze_repo`.  Every
entry of `dev_activity` has `last_commit` set at this point (the loop body
always stores it), so the `getD 0` default of the `none` case — where
Python would raise on `None + timedelta` — is never used. -/
def leave_event (cfg : Config) (p : String × DevRecord) : Event :=
  { event := "DEV_LEAVE",
    date := addDays (p.2.last_commit.getD 0) cfg.developer_leave_inactivity_days,
    developer := some p.1,
    last_commit_date := p.2.last_commit,
    last_commit_id := p.2.last_commit_id }

/-- Python list slicing `xs[:k]` for an arbitrary integer `k`: a
non-negative `k` keeps the first `k` elements, a negative `k` drops the
last `-k` (clamped to the empty list). -/
def pySliceTo (xs : List Commit) (k : Int) : List Commit :=
  if 0 ≤ k then xs.take k.toNat else xs.take (xs.length - (-k).toNat)

/-- The commit list `analyze_repo` actually iterates over:
`commits.reverse()` followed by `if max_commits: commits = commits[:max_commits]`
(`None` and `0` are falsy in Python and mean "all"). -/
def effectiveCommits (commits_newest_first : List Commit) (max_commits : Option Int) :
    List Commit :=
  let commits := commits_newest_first.reverse
  match max_commits with
  | none => commits
  | some k => if k = 0 then commits else pySliceTo commits k

/-- `analyze_repo` from the source.  `commits_newest_first` is the list
`repo.iter_commits(branch)` supplies (newest first); the function reverses
it, applies the `max_commits` truncation, runs the commit loop, and appends
one `DEV_LEAVE` event per tracked developer. -/
def analyze_repo (cfg : Config) (llm : String → Option String) (rand : Nat → Nat)
    (commits_newest_first : List Commit) (max_commits : Option Int) : List Event :=
  let commits := effectiveCommits commits_newest_first max_commits
  let out := runLoop cfg llm rand initState [] commits
  out.2 ++ out.1.dev_activity.map (leave_event cfg)

/-!  Specification-side helper functions, used only to state and prove
properties of the embedding above. -/

/-- The sub-list of commits authored by `a`, in processing order. -/
def commitsBy (l : List Commit) (a : String) : List Commit :=
  l.filter (fun c => c.author_name == a)

/-- Append an element to a list unless it is already present — how both a
Python dict's key order and a `DEV_JOIN`-emission decision evolve. -/
def insertIfNew (xs : List String) (a : String) : List String :=
  if a ∈ xs then xs else xs ++ [a]

/-- Dict key order after inserting the authors of `l`, starting from `seen`. -/
def foldAuthors (seen : List String) (l : List Commit) : List String :=
  l.foldl (fun ks c => insertIfNew ks c.author_name) seen

/-- The commits of `l` whose author has not been seen before (neither in
`seen` nor earlier in `l`): exactly the commits that trigger `DEV_JOIN`. -/
def newAuthorCommits (seen : List String) : List Commit → List Commit
  | [] => []
  | c :: rest =>
      if c.author_name ∈ seen then newAuthorCommits seen rest
      else c :: newAuthorCommits (seen ++ [c.author_name]) rest

/-- The effect of one loop iteration on one developer's activity record:
stamp `first_commit` if absent, overwrite `last_commit`/`last_commit_id`. -/
def applyCommit (r : Option DevRecord) (c : Commit) : DevRecord :=
  { first_commit := some ((r.getD {}).first_commit.getD c.committed_date),
    last_commit := some c.committed_date,
    last_commit_id := some (short_id c) }

/-- The final loop state, defined by the same recursion as `runLoop`. -/
def stateOf (cfg : Config) (llm : String → Option String) (rand : Nat → Nat)
    (st : LoopState) : List Commit → LoopState
  | [] => st
  | c :: rest => stateOf cfg llm rand (process_commit cfg llm rand st c).1 rest

/-- The events the loop emits, defined by the same recursion as `runLoop`. -/
def eventsOf (cfg : Config) (llm : String → Option String) (rand : Nat → Nat)
    (st : LoopState) : List Commit → List Event
  | [] => []
  | c :: rest =>
      (process_commit cfg llm rand st c).2 ++
        eventsOf cfg llm rand (process_commit cfg llm rand st c).1 rest

/-- Every tracked developer has `first_commit` and `last_commit` stamped —
true of every state the loop reaches from `initState`. -/
def goodState (st : LoopState) : Prop :=
  ∀ p ∈ st.dev_activity, p.2.first_commit ≠ none ∧ p.2.last_commit ≠ none

/-- The four built-in event kinds. -/
def reservedKinds : List String :=
  ["DEV_JOIN", "DEV_LEAVE", "BUG_OPEN", "FEATURE_PROPOSE"]

/-- A sane configuration: sub-stage names are pairwise distinct within each
mapping (true of any Python dict) and distinct from the four built-in event
kinds (true of the closed `EventKind` taxonomy, and of `default_config`). -/
def Config.Sane (cfg : Config) : Prop :=
  (cfg.feature_event_offsets.map (fun p => p.1)).Nodup ∧
  (cfg.bug_event_offsets.map (fun p => p.1)).Nodup ∧
  (∀ p ∈ cfg.feature_event_offsets, p.1 ∉ reservedKinds) ∧
  (∀ p ∈ cfg.bug_event_offsets, p.1 ∉ reservedKinds)

instance (cfg : Config) : Decidable cfg.Sane := by
  unfold Config.Sane
  infer_instance

/-- How many events one commit's classification branch emits. -/
def branchCount (cfg : Config) (c : Commit) : Nat :=
  if c.lines_changed ≥ cfg.large_commit_line_threshold then
    cfg.feature_event_offsets.length + 1
  else
    cfg.bug_event_offsets.length + 1

/-!  Basic lemmas about the association-list operations. -/

theorem lookupDev_nil (a : String) : lookupDev [] a = none := rfl

theorem lookupDev_cons (k : String) (r : DevRecord) (log : ActivityLog) (a : String) :
    lookupDev ((k, r) :: log) a = if k == a then some r else lookupDev log a := by
  simp only [lookupDev, List.find?_cons]
  cases h : k == a <;> simp [h]

theorem lookupDev_setRecord (log : ActivityLog) (n : String) (r : DevRecord) (a : String) :
    lookupDev (setRecord log n r) a = if n == a then some r else lookupDev log a := by
  induction log with
  | nil =>
      by_cases ha : n = a
      · subst ha; simp [setRecord, lookupDev_cons]
      · simp [setRecord, lookupDev_cons, (by simpa using ha : (n == a) = false)]
  | cons p log ih =>
      obtain ⟨k, v⟩ := p
      by_cases hk : k = n
      · subst hk
        simp only [setRecord, beq_self_eq_true, if_true]
        by_cases ha : k = a
        · subst ha; simp [lookupDev_cons]
        · have ha' : (k == a) = false := by simpa using ha
          simp [lookupDev_cons, ha']
      · have hk' : (k == n) = false := by simpa using hk
        simp only [setRecord, hk', Bool.false_eq_true, if_false, lookupDev_cons]
        by_cases ha : k = a
        · subst ha
          have hna : (n == k) = false := by
            simp only [beq_eq_false_iff_ne]
            exact fun hh => hk hh.symm
          simp [hna]
        · have ha' : (k == a) = false := by simpa using ha
          simp [ha', ih]

theorem keys_setRecord (log : ActivityLog) (n : String) (r : DevRecord) :
    (setRecord log n r).map (fun p => p.1) =
      insertIfNew (log.map (fun p => p.1)) n := by
  induction log with
  | nil => simp [setRecord, insertIfNew]
  | cons p log ih =>
      obtain ⟨k, v⟩ := p
      by_cases hk : k = n
      · subst hk
        simp [setRecord, insertIfNew]
      · have hk' : (k == n) = false := by simpa using hk
        simp only [setRecord, hk', Bool.false_eq_true, if_false, List.map_cons, ih,
          insertIfNew]
        by_cases hm : n ∈ log.map (fun p => p.1)
        · simp [hm, Ne.symm hk]
        · simp [hm, Ne.symm hk]

theorem mem_setRecord {log : ActivityLog} {n : String} {r : DevRecord} {q : String × DevRecord}
    (hq : q ∈ setRecord log n r) : q ∈ log ∨ q = (n, r) := by
  induction log with
  | nil => simpa [setRecord] using hq
  | cons p log ih =>
      by_cases hk : p.1 == n
      · simp only [setRecord, hk, if_true] at hq
        rcases List.mem_cons.1 hq with h | h
        · right; exact h
        · left; exact List.mem_cons_of_mem _ h
      · simp only [setRecord, hk, Bool.false_eq_true, if_false] at hq
        rcases List.mem_cons.1 hq with h | h
        · left; simp [h]
        · rcases ih h with h' | h'
          · left; exact List.mem_cons_of_mem _ h'
          · right; exact h'

theorem lookupDev_eq_none_iff (log : ActivityLog) (a : String) :
    lookupDev log a = none ↔ a ∉ log.map (fun p => p.1) := by
  induction log with
  | nil => simp [lookupDev_nil]
  | cons p log ih =>
      obtain ⟨k, v⟩ := p
      rw [lookupDev_cons]
      by_cases h : k = a
      · subst h; simp
      · have h' : (k == a) = false := by simpa using h
        simp [h', ih, Ne.symm h]

theorem lookupDev_mem {log : ActivityLog} {a : String} {r : DevRecord}
    (h : lookupDev log a = some r) : (a, r) ∈ log := by
  induction log with
  | nil => simp [lookupDev_nil] at h
  | cons p log ih =>
      obtain ⟨k, v⟩ := p
      rw [lookupDev_cons] at h
      by_cases hk : k = a
      · subst hk
        simp only [beq_self_eq_true, if_true, Option.some.injEq] at h
        subst h; exact List.mem_cons_self _ _
      · have hk' : (k == a) = false := by simpa using hk
        rw [hk'] at h
        simp only [Bool.false_eq_true, if_false] at h
        exact List.mem_cons_of_mem _ (ih h)

/-!  Characterization of one loop iteration and of the whole loop. -/

theorem process_commit_fst (cfg : Config) (llm : String → Option String) (rand : Nat → Nat)
    (st : LoopState) (c : Commit) :
    (process_commit cfg llm rand st c).1 =
      { dev_activity := setRecord st.dev_activity c.author_name
          (applyCommit (lookupDev st.dev_activity c.author_name) c),
        rand_ctr := st.rand_ctr +
          (if c.lines_changed ≥ cfg.large_commit_line_threshold then 3 else 1) } := by
  unfold process_commit applyCommit
  cases h : ((lookupDev st.dev_activity c.author_name).getD {}).first_commit <;> simp [h]

theorem process_commit_snd (cfg : Config) (llm : String → Option String) (rand : Nat → Nat)
    (st : LoopState) (c : Commit) :
    (process_commit cfg llm rand st c).2 =
      (if ((lookupDev st.dev_activity c.author_name).getD {}).first_commit = none
        then [join_event c] else []) ++
      branch_events cfg llm rand st.rand_ctr
        (setRecord st.dev_activity c.author_name
          (applyCommit (lookupDev st.dev_activity c.author_name) c)) c := by
  unfold process_commit applyCommit
  cases h : ((lookupDev st.dev_activity c.author_name).getD {}).first_commit <;> simp [h]

theorem runLoop_eq (cfg : Config) (llm : String → Option String) (rand : Nat → Nat)
    (st : LoopState) (evs : List Event) (l : List Commit) :
    runLoop cfg llm rand st evs l =
      (stateOf cfg llm rand st l, evs ++ eventsOf cfg llm rand st l) := by
  induction l generalizing st evs with
  | nil => simp [runLoop, stateOf, eventsOf]
  | cons c rest ih => simp [runLoop, stateOf, eventsOf, ih]

theorem analyze_repo_eq (cfg : Config) (llm : String → Option String) (rand : Nat → Nat)
    (cs : List Commit) (lim : Option Int) :
    analyze_repo cfg llm rand cs lim =
      eventsOf cfg llm rand initState (effectiveCommits cs lim) ++
        (stateOf cfg llm rand initState (effectiveCommits cs lim)).dev_activity.map
          (leave_event cfg) := by
  unfold analyze_repo
  simp only [runLoop_eq, List.nil_append]

theorem lookupDev_stateOf (cfg : Config) (llm : String → Option String) (rand : Nat → Nat)
    (st : LoopState) (l : List Commit) (a : String) :
    lookupDev (stateOf cfg llm rand st l).dev_activity a =
      (commitsBy l a).foldl (fun r c => some (applyCommit r c))
        (lookupDev st.dev_activity a) := by
  induction l generalizing st with
  | nil => simp [stateOf, commitsBy]
  | cons c rest ih =>
      rw [stateOf, ih]
      simp only [commitsBy, List.filter_cons]
      rw [process_commit_fst]
      simp only
      rw [lookupDev_setRecord]
      by_cases h : c.author_name = a
      · have h' : (c.author_name == a) = true := by simpa using h
        rw [h', h]
        simp [List.foldl_cons]
      · have h' : (c.author_name == a) = false := by simpa using h
        rw [h']
        simp

theorem keys_stateOf (cfg : Config) (llm : String → Option String) (rand : Nat → Nat)
    (st : LoopState) (l : List Commit) :
    (stateOf cfg llm rand st l).dev_activity.map (fun p => p.1) =
      foldAuthors (st.dev_activity.map (fun p => p.1)) l := by
  induction l generalizing st with
  | nil => simp [stateOf, foldAuthors]
  | cons c rest ih =>
      rw [stateOf, ih]
      simp only [foldAuthors, List.foldl_cons]
      rw [process_commit_fst]
      simp only
      rw [keys_setRecord]

theorem goodState_init : goodState initState := by
  intro p hp
  simp [initState] at hp

theorem goodState_process (cfg : Config) (llm : String → Option String) (rand : Nat → Nat)
    {st : LoopState} (h : goodState st) (c : Commit) :
    goodState (process_commit cfg llm rand st c).1 := by
  rw [process_commit_fst]
  intro p hp
  rcases mem_setRecord hp with h' | h'
  · exact h p h'
  · subst h'; simp [applyCommit]

/-!  Generic list lemmas. -/

theorem filter_of_map {α β : Type} (f : α → β) (q : β → Bool) (l : List α) :
    (l.map f).filter q = (l.filter (fun x => q (f x))).map f := by
  induction l with
  | nil => rfl
  | cons x l ih =>
      by_cases h : q (f x) = true <;> simp [List.filter_cons, h, ih]

theorem filter_key_of_nodup {β : Type} {m : List (String × β)} {p : String × β}
    (hnd : (m.map (fun q => q.1)).Nodup) (hp : p ∈ m) :
    m.filter (fun q => q.1 == p.1) = [p] := by
  induction m with
  | nil => cases hp
  | cons q m ih =>
      simp only [List.map_cons, List.nodup_cons] at hnd
      rcases List.mem_cons.1 hp with h | h
      · subst h
        simp only [List.filter_cons, beq_self_eq_true, if_true, List.cons.injEq, true_and]
        rw [List.filter_eq_nil_iff]
        intro b hb
        simp only [beq_iff_eq]
        intro heq
        exact hnd.1 (heq ▸ List.mem_map.2 ⟨b, hb, rfl⟩)
      · have hne : q.1 ≠ p.1 := by
          intro hEq
          exact hnd.1 (hEq ▸ List.mem_map.2 ⟨p, h, rfl⟩)
        have hq : (q.1 == p.1) = false := by simpa using hne
        simp [List.filter_cons, hq, ih hnd.2 h]

/-!  The per-developer record after a run, and the commits that trigger
`DEV_JOIN`. -/

theorem foldl_applyCommit (cs : List Commit) (c0 : Commit) (acc : Option DevRecord) :
    List.foldl (fun r c => some (applyCommit r c)) acc (c0 :: cs) =
      some { first_commit := some (((acc.getD {}).first_commit).getD c0.committed_date),
             last_commit := some ((cs.getLastD c0).committed_date),
             last_commit_id := some (short_id (cs.getLastD c0)) } := by
  induction cs generalizing c0 acc with
  | nil => simp [applyCommit]
  | cons c1 cs ih =>
      rw [List.foldl_cons, ih]
      simp [applyCommit]
      cases cs <;> simp [List.getLast?_cons]

theorem newAuthorCommits_author_not_seen {seen : List String} {l : List Commit} {c : Commit}
    (h : c ∈ newAuthorCommits seen l) : c.author_name ∉ seen := by
  induction l generalizing seen with
  | nil => cases h
  | cons c0 rest ih =>
      rw [newAuthorCommits] at h
      by_cases h0 : c0.author_name ∈ seen
      · rw [if_pos h0] at h; exact ih h
      · rw [if_neg h0] at h
        rcases List.mem_cons.1 h with h1 | h1
        · subst h1; exact h0
        · intro hc
          exact ih h1 (List.mem_append_left _ hc)

theorem newAuthorCommits_first {seen : List String} {l : List Commit} {c : Commit}
    (h : c ∈ newAuthorCommits seen l) :
    l.find? (fun x => x.author_name == c.author_name) = some c := by
  induction l generalizing seen with
  | nil => cases h
  | cons c0 rest ih =>
      rw [newAuthorCommits] at h
      by_cases h0 : c0.author_name ∈ seen
      · rw [if_pos h0] at h
        have hne : (c0.author_name == c.author_name) = false := by
          simp only [beq_eq_false_iff_ne]
          intro he
          exact (newAuthorCommits_author_not_seen h) (he ▸ h0)
        simp [List.find?_cons, hne, ih h]
      · rw [if_neg h0] at h
        rcases List.mem_cons.1 h with h1 | h1
        · subst h1; simp [List.find?_cons]
        · have hne : (c0.author_name == c.author_name) = false := by
            simp only [beq_eq_false_iff_ne]
            intro he
            exact (newAuthorCommits_author_not_seen h1)
              (he ▸ List.mem_append_right _ (List.mem_singleton.2 rfl))
          simp [List.find?_cons, hne, ih h1]

theorem newAuthorCommits_covers {seen : List String} {l : List Commit} {a : String}
    (hmem : a ∈ l.map (fun c => c.author_name)) (hns : a ∉ seen) :
    ∃ c ∈ newAuthorCommits seen l, c.author_name = a := by
  induction l generalizing seen with
  | nil => simp at hmem
  | cons c0 rest ih =>
      rw [newAuthorCommits]
      simp only [List.map_cons, List.mem_cons] at hmem
      by_cases h0 : c0.author_name ∈ seen
      · rw [if_pos h0]
        rcases hmem with h | h
        · exact absurd (h ▸ h0) hns
        · exact ih h hns
      · rw [if_neg h0]
        by_cases ha : c0.author_name = a
        · exact ⟨c0, List.mem_cons_self _ _, ha⟩
        · rcases hmem with h | h
          · exact absurd h.symm ha
          · have hns' : a ∉ seen ++ [c0.author_name] := by
              intro hc
              rcases List.mem_append.1 hc with hc | hc
              · exact hns hc
              · exact ha (List.mem_singleton.1 hc).symm
            obtain ⟨c, hc, hca⟩ := ih h hns'
            exact ⟨c, List.mem_cons_of_mem _ hc, hca⟩

theorem newAuthorCommits_length (seen : List String) (l : List Commit) :
    (newAuthorCommits seen l).length + seen.length = (foldAuthors seen l).length := by
  induction l generalizing seen with
  | nil => simp [newAuthorCommits, foldAuthors]
  | cons c rest ih =>
      rw [newAuthorCommits]
      simp only [foldAuthors, List.foldl_cons]
      by_cases h0 : c.author_name ∈ seen
      · rw [if_pos h0]
        have hins : insertIfNew seen c.author_name = seen := by simp [insertIfNew, h0]
        rw [hins]
        exact ih seen
      · rw [if_neg h0]
        have hins : insertIfNew seen c.author_name = seen ++ [c.author_name] := by
          simp [insertIfNew, h0]
        rw [hins]
        have h1 := ih (seen ++ [c.author_name])
        simp only [foldAuthors] at h1
        simp only [List.length_cons, List.length_append, List.length_nil] at h1 ⊢
        omega

theorem mem_foldAuthors (seen : List String) (l : List Commit) (a : String) :
    a ∈ foldAuthors seen l ↔ a ∈ seen ∨ a ∈ l.map (fun c => c.author_name) := by
  induction l generalizing seen with
  | nil => simp [foldAuthors]
  | cons c rest ih =>
      simp only [foldAuthors, List.foldl_cons, List.map_cons, List.mem_cons]
      rw [show List.foldl (fun ks c => insertIfNew ks c.author_name)
            (insertIfNew seen c.author_name) rest =
          foldAuthors (insertIfNew seen c.author_name) rest from rfl]
      rw [ih]
      unfold insertIfNew
      by_cases h0 : c.author_name ∈ seen
      · rw [if_pos h0]
        constructor
        · rintro (h | h)
          · exact Or.inl h
          · exact Or.inr (Or.inr h)
        · rintro (h | h | h)
          · exact Or.inl h
          · exact Or.inl (h ▸ h0)
          · exact Or.inr h
      · rw [if_neg h0]
        simp only [List.mem_append, List.mem_singleton]
        constructor
        · rintro ((h | h) | h)
          · exact Or.inl h
          · exact Or.inr (Or.inl h)
          · exact Or.inr (Or.inr h)
        · rintro (h | h | h)
          · exact Or.inl (Or.inl h)
          · exact Or.inl (Or.inr h)
          · exact Or.inr h

theorem foldAuthors_nodup (seen : List String) (l : List Commit) (h : seen.Nodup) :
    (foldAuthors seen l).Nodup := by
  induction l generalizing seen with
  | nil => simpa [foldAuthors]
  | cons c rest ih =>
      simp only [foldAuthors, List.foldl_cons]
      apply ih
      by_cases h0 : c.author_name ∈ seen
      · simpa [insertIfNew, h0]
      · rw [show insertIfNew seen c.author_name = seen ++ [c.author_name] from by
          simp [insertIfNew, h0]]
        simp [List.nodup_append, h, h0]

theorem foldAuthors_length (l : List Commit) :
    (foldAuthors [] l).length = (l.map (fun c => c.author_name)).dedup.length := by
  have hnd : (foldAuthors [] l).Nodup := foldAuthors_nodup [] l (by simp)
  have hset : (foldAuthors [] l).toFinset = (l.map (fun c => c.author_name)).toFinset := by
    ext a
    simp [List.mem_toFinset, mem_foldAuthors]
  calc (foldAuthors [] l).length
      = (foldAuthors [] l).toFinset.card := (List.toFinset_card_of_nodup hnd).symm
    _ = (l.map (fun c => c.author_name)).toFinset.card := by rw [hset]
    _ = (l.map (fun c => c.author_name)).dedup.length := List.card_toFinset _

/-!  The two shapes of `branch_events`. -/

theorem branch_events_feature (cfg : Config) (llm : String → Option String)
    (rand : Nat → Nat) (ctr : Nat) (log : ActivityLog) (c : Commit)
    (h : c.lines_changed ≥ cfg.large_commit_line_threshold) :
    branch_events cfg llm rand ctr log c =
      cfg.feature_event_offsets.map (fun p =>
        ({ event := p.1,
           date := addDays c.committed_date p.2,
           developer := some (dictGetStr
             (feature_role_map c.author_name (plannerOf cfg rand ctr log c)
               (designerOf cfg rand ctr log c) (reviewerOf cfg rand ctr log c))
             p.1 c.author_name),
           feature := some (summarize_commit_message cfg llm (pyStrip c.message)),
           source_commit_id := some (short_id c) } : Event)) ++
      [{ event := "FEATURE_PROPOSE",
         date := addDays c.committed_date
           (dictGetInt cfg.feature_event_offsets "FEATURE_PR_OPEN" 0),
         feature := some (summarize_commit_message cfg llm (pyStrip c.message)),
         author := some c.author_name,
         commit_id := some (short_id c),
         source_commit_id := some (short_id c) }] := by
  simp only [branch_events, if_pos h]

theorem branch_events_bug (cfg : Config) (llm : String → Option String)
    (rand : Nat → Nat) (ctr : Nat) (log : ActivityLog) (c : Commit)
    (h : ¬ c.lines_changed ≥ cfg.large_commit_line_threshold) :
    branch_events cfg llm rand ctr log c =
      [({ event := "BUG_OPEN",
          date := c.committed_date,
          bug := some (summarize_commit_message cfg llm (pyStrip c.message)),
          author := some c.author_name,
          source_commit_id := some (short_id c) } : Event)] ++
      cfg.bug_event_offsets.map (fun p =>
        ({ event := p.1,
           date := addDays c.committed_date p.2,
           developer := some (if is_review_stage p.1
             then bugReviewerOf cfg rand ctr log c else c.author_name),
           bug := some (summarize_commit_message cfg llm (pyStrip c.message)),
           source_commit_id := some (short_id c) } : Event)) := by
  simp only [branch_events, if_neg h]

theorem branch_events_length (cfg : Config) (llm : String → Option String)
    (rand : Nat → Nat) (ctr : Nat) (log : ActivityLog) (c : Commit) :
    (branch_events cfg llm rand ctr log c).length = branchCount cfg c := by
  by_cases h : c.lines_changed ≥ cfg.large_commit_line_threshold
  · rw [branch_events_feature cfg llm rand ctr log c h, branchCount, if_pos h]
    simp
  · rw [branch_events_bug cfg llm rand ctr log c h, branchCount, if_neg h]
    simp [Nat.add_comm]

theorem branch_events_kinds {cfg : Config} {llm : String → Option String}
    {rand : Nat → Nat} {ctr : Nat} {log : ActivityLog} {c : Commit} {e : Event}
    (he : e ∈ branch_events cfg llm rand ctr log c) :
    e.event = "BUG_OPEN" ∨ e.event = "FEATURE_PROPOSE" ∨
      e.event ∈ cfg.feature_event_offsets.map (fun p => p.1) ∨
      e.event ∈ cfg.bug_event_offsets.map (fun p => p.1) := by
  by_cases h : c.lines_changed ≥ cfg.large_commit_line_threshold
  · rw [branch_events_feature cfg llm rand ctr log c h] at he
    rcases List.mem_append.1 he with h1 | h1
    · obtain ⟨p, hp, rfl⟩ := List.mem_map.1 h1
      exact Or.inr (Or.inr (Or.inl (List.mem_map.2 ⟨p, hp, rfl⟩)))
    · rw [List.mem_singleton] at h1
      subst h1
      exact Or.inr (Or.inl rfl)
  · rw [branch_events_bug cfg llm rand ctr log c h] at he
    rcases List.mem_append.1 he with h1 | h1
    · rw [List.mem_singleton] at h1
      subst h1
      exact Or.inl rfl
    · obtain ⟨p, hp, rfl⟩ := List.mem_map.1 h1
      exact Or.inr (Or.inr (Or.inr (List.mem_map.2 ⟨p, hp, rfl⟩)))

theorem branch_events_event_ne {cfg : Config} {llm : String → Option String}
    {rand : Nat → Nat} {ctr : Nat} {log : ActivityLog} {c : Commit} {e : Event}
    (hs : cfg.Sane) (he : e ∈ branch_events cfg llm rand ctr log c)
    {s : String} (hres : s ∈ reservedKinds)
    (hs1 : s ≠ "BUG_OPEN") (hs2 : s ≠ "FEATURE_PROPOSE") : e.event ≠ s := by
  obtain ⟨hfnd, hbnd, hfres, hbres⟩ := hs
  rcases branch_events_kinds he with h | h | h | h
  · rw [h]; exact fun hh => hs1 hh.symm
  · rw [h]; exact fun hh => hs2 hh.symm
  · obtain ⟨p, hp, hpe⟩ := List.mem_map.1 h
    rw [← hpe]
    intro hh
    exact hfres p hp (hh ▸ hres)
  · obtain ⟨p, hp, hpe⟩ := List.mem_map.1 h
    rw [← hpe]
    intro hh
    exact hbres p hp (hh ▸ hres)

theorem filter_map_key {β : Type} (m : List (String × β)) (f : String × β → Event)
    (hf : ∀ x, (f x).event = x.1) (p : String × β)
    (hnd : (m.map (fun q => q.1)).Nodup) (hp : p ∈ m) :
    (m.map f).filter (fun e => e.event == p.1) = [f p] := by
  rw [filter_of_map]
  have hcongr : m.filter (fun x => (f x).event == p.1) = m.filter (fun q => q.1 == p.1) := by
    apply List.filter_congr
    intro x hx
    rw [hf x]
  rw [hcongr, filter_key_of_nodup hnd hp]
  rfl

theorem branch_events_filter_feature (cfg : Config) (llm : String → Option String)
    (rand : Nat → Nat) (ctr : Nat) (log : ActivityLog) (c : Commit)
    (h : c.lines_changed ≥ cfg.large_commit_line_threshold)
    (hnd : (cfg.feature_event_offsets.map (fun q => q.1)).Nodup)
    {p : String × Int} (hp : p ∈ cfg.feature_event_offsets)
    (hne : p.1 ≠ "FEATURE_PROPOSE") :
    (branch_events cfg llm rand ctr log c).filter (fun e => e.event == p.1) =
      [({ event := p.1,
          date := addDays c.committed_date p.2,
          developer := some (dictGetStr
            (feature_role_map c.author_name (plannerOf cfg rand ctr log c)
              (designerOf cfg rand ctr log c) (reviewerOf cfg rand ctr log c))
            p.1 c.author_name),
          feature := some (summarize_commit_message cfg llm (pyStrip c.message)),
          source_commit_id := some (short_id c) } : Event)] := by
  rw [branch_events_feature cfg llm rand ctr log c h, List.filter_append]
  rw [filter_map_key _ _ (fun x => rfl) p hnd hp]
  have hprop : (("FEATURE_PROPOSE" : String) == p.1) = false := by
    simp only [beq_eq_false_iff_ne]
    exact fun hh => hne hh.symm
  simp [List.filter_cons, hprop]

theorem branch_events_filter_bug (cfg : Config) (llm : String → Option String)
    (rand : Nat → Nat) (ctr : Nat) (log : ActivityLog) (c : Commit)
    (h : ¬ c.lines_changed ≥ cfg.large_commit_line_threshold)
    (hnd : (cfg.bug_event_offsets.map (fun q => q.1)).Nodup)
    {p : String × Int} (hp : p ∈ cfg.bug_event_offsets)
    (hne : p.1 ≠ "BUG_OPEN") :
    (branch_events cfg llm rand ctr log c).filter (fun e => e.event == p.1) =
      [({ event := p.1,
          date := addDays c.committed_date p.2,
          developer := some (if is_review_stage p.1
            then bugReviewerOf cfg rand ctr log c else c.author_name),
          bug := some (summarize_commit_message cfg llm (pyStrip c.message)),
          source_commit_id := some (short_id c) } : Event)] := by
  rw [branch_events_bug cfg llm rand ctr log c h, List.filter_append]
  rw [filter_map_key _ _ (fun x => rfl) p hnd hp]
  have hbo : (("BUG_OPEN" : String) == p.1) = false := by
    simp only [beq_eq_false_iff_ne]
    exact fun hh => hne hh.symm
  simp [List.filter_cons, hbo]

/-!  Run-level lemmas about the emitted event stream. -/

theorem lookup_first_none_iff {st : LoopState} (hg : goodState st) (a : String) :
    (((lookupDev st.dev_activity a).getD {}).first_commit = none) ↔
      a ∉ st.dev_activity.map (fun p => p.1) := by
  constructor
  · intro h
    rw [← lookupDev_eq_none_iff]
    cases hlk : lookupDev st.dev_activity a with
    | none => rfl
    | some r =>
        exfalso
        have hne := (hg _ (lookupDev_mem hlk)).1
        rw [hlk] at h
        exact hne h
  · intro h
    rw [← lookupDev_eq_none_iff] at h
    rw [h]
    rfl

theorem process_commit_filter_join (cfg : Config) (llm : String → Option String)
    (rand : Nat → Nat) {st : LoopState} (hg : goodState st) (hs : cfg.Sane) (c : Commit) :
    (process_commit cfg llm rand st c).2.filter (fun e => e.event == "DEV_JOIN") =
      if c.author_name ∈ st.dev_activity.map (fun p => p.1) then []
      else [join_event c] := by
  rw [process_commit_snd, List.filter_append]
  have hbr : (branch_events cfg llm rand st.rand_ctr
      (setRecord st.dev_activity c.author_name
        (applyCommit (lookupDev st.dev_activity c.author_name) c)) c).filter
      (fun e => e.event == "DEV_JOIN") = [] := by
    rw [List.filter_eq_nil_iff]
    intro e he
    have hne := branch_events_event_ne hs he
      (show "DEV_JOIN" ∈ reservedKinds by simp [reservedKinds]) (by decide) (by decide)
    simpa using hne
  rw [hbr, List.append_nil]
  simp only [lookup_first_none_iff hg]
  by_cases hmem : c.author_name ∈ st.dev_activity.map (fun p => p.1)
  · simp [hmem]
  · simp [hmem, join_event]

theorem eventsOf_filter_join (cfg : Config) (llm : String → Option String)
    (rand : Nat → Nat) (hs : cfg.Sane) :
    ∀ (l : List Commit) (st : LoopState), goodState st →
    (eventsOf cfg llm rand st l).filter (fun e => e.event == "DEV_JOIN") =
      (newAuthorCommits (st.dev_activity.map (fun p => p.1)) l).map join_event := by
  intro l
  induction l with
  | nil =>
      intro st hg
      simp [eventsOf, newAuthorCommits]
  | cons c rest ih =>
      intro st hg
      rw [eventsOf, List.filter_append, process_commit_filter_join cfg llm rand hg hs c,
        ih _ (goodState_process cfg llm rand hg c), newAuthorCommits]
      rw [process_commit_fst]
      simp only
      rw [keys_setRecord]
      by_cases hmem : c.author_name ∈ st.dev_activity.map (fun p => p.1)
      · rw [if_pos hmem, if_pos hmem]
        simp [insertIfNew, hmem]
      · rw [if_neg hmem, if_neg hmem]
        simp [insertIfNew, hmem]

theorem eventsOf_no_leave (cfg : Config) (llm : String → Option String)
    (rand : Nat → Nat) (hs : cfg.Sane) :
    ∀ (l : List Commit) (st : LoopState) {e : Event}, e ∈ eventsOf cfg llm rand st l →
      e.event ≠ "DEV_LEAVE" := by
  intro l
  induction l with
  | nil =>
      intro st e he
      simp [eventsOf] at he
  | cons c rest ih =>
      intro st e he
      rw [eventsOf] at he
      rcases List.mem_append.1 he with h | h
      · rw [process_commit_snd] at h
        rcases List.mem_append.1 h with h1 | h1
        · split at h1
          · rw [List.mem_singleton] at h1
            subst h1
            simp [join_event]
          · cases h1
        · exact branch_events_event_ne hs h1
            (show "DEV_LEAVE" ∈ reservedKinds by simp [reservedKinds])
            (by decide) (by decide)
      · exact ih _ h

theorem eventsOf_length (cfg : Config) (llm : String → Option String)
    (rand : Nat → Nat) :
    ∀ (l : List Commit) (st : LoopState), goodState st →
    (eventsOf cfg llm rand st l).length =
      (newAuthorCommits (st.dev_activity.map (fun p => p.1)) l).length +
      (l.map (branchCount cfg)).sum := by
  intro l
  induction l with
  | nil =>
      intro st hg
      simp [eventsOf, newAuthorCommits]
  | cons c rest ih =>
      intro st hg
      rw [eventsOf, List.length_append, process_commit_snd, List.length_append,
        branch_events_length, ih _ (goodState_process cfg llm rand hg c), newAuthorCommits]
      rw [process_commit_fst]
      simp only
      rw [keys_setRecord]
      simp only [lookup_first_none_iff hg]
      by_cases hmem : c.author_name ∈ st.dev_activity.map (fun p => p.1)
      · rw [if_pos hmem]
        simp only [insertIfNew, if_pos hmem, List.map_cons, List.sum_cons]
        simp [hmem]
        omega
      · rw [if_neg hmem]
        simp only [insertIfNew, if_neg hmem, List.map_cons, List.sum_cons]
        simp [hmem]
        omega

/-!  Lemmas about the role selector. -/

theorem active_devs_not_excluded {devs exclude : List String} {as_of_day : Instant}
    {dev_activity : ActivityLog} {threshold_days : Int} {d : String}
    (h : d ∈ active_devs devs exclude as_of_day dev_activity threshold_days) :
    d ∉ exclude := by
  unfold active_devs at h
  have hb := List.of_mem_filter h
  simp only [Bool.and_eq_true, Bool.not_eq_true'] at hb
  intro hmem
  have hc := hb.1
  simp only [List.contains_eq_any_beq, List.any_eq_false] at hc
  exact hc d hmem (beq_self_eq_true d)

theorem pick_other_dev_isSome (devs exclude : List String) (as_of_day : Instant)
    (dev_activity : ActivityLog) (threshold_days : Int) (choice : Nat)
    (h : exclude ≠ []) :
    (pick_other_dev devs exclude as_of_day dev_activity threshold_days choice).isSome = true := by
  unfold pick_other_dev
  by_cases hact : (active_devs devs exclude as_of_day dev_activity threshold_days).isEmpty
  · rw [if_pos hact]
    cases exclude with
    | nil => exact absurd rfl h
    | cons x xs => simp
  · rw [if_neg hact]
    have hlen : 0 < (active_devs devs exclude as_of_day dev_activity threshold_days).length := by
      cases hl : active_devs devs exclude as_of_day dev_activity threshold_days with
      | nil => rw [hl] at hact; simp at hact
      | cons x xs => simp [hl]
    have hmod := Nat.mod_lt choice hlen
    rw [List.get?_eq_get hmod]
    rfl

theorem pick_other_dev_spec (devs exclude : List String) (as_of_day : Instant)
    (dev_activity : ActivityLog) (threshold_days : Int) (choice : Nat) :
    (active_devs devs exclude as_of_day dev_activity threshold_days ≠ [] →
      ∃ r, pick_other_dev devs exclude as_of_day dev_activity threshold_days choice = some r ∧
        r ∉ exclude) ∧
    (active_devs devs exclude as_of_day dev_activity threshold_days = [] →
      pick_other_dev devs exclude as_of_day dev_activity threshold_days choice =
        exclude.head?) := by
  constructor
  · intro hne
    have hact : ¬ (active_devs devs exclude as_of_day dev_activity threshold_days).isEmpty := by
      simpa [List.isEmpty_iff] using hne
    have hlen : 0 < (active_devs devs exclude as_of_day dev_activity threshold_days).length := by
      cases hl : active_devs devs exclude as_of_day dev_activity threshold_days with
      | nil => exact absurd hl hne
      | cons x xs => simp [hl]
    have hmod := Nat.mod_lt choice hlen
    unfold pick_other_dev
    rw [if_neg hact, List.get?_eq_get hmod]
    exact ⟨_, rfl, active_devs_not_excluded (List.get_mem _ _ _)⟩
  · intro hemp
    unfold pick_other_dev
    rw [if_pos (by simp [hemp])]

/-!  Additional branch-shape lemmas. -/

theorem branch_events_feature_kinds {cfg : Config} {llm : String → Option String}
    {rand : Nat → Nat} {ctr : Nat} {log : ActivityLog} {c : Commit} {e : Event}
    (h : c.lines_changed ≥ cfg.large_commit_line_threshold)
    (he : e ∈ branch_events cfg llm rand ctr log c) :
    e.event = "FEATURE_PROPOSE" ∨
      e.event ∈ cfg.feature_event_offsets.map (fun p => p.1) := by
  rw [branch_events_feature cfg llm rand ctr log c h] at he
  rcases List.mem_append.1 he with h1 | h1
  · obtain ⟨p, hp, rfl⟩ := List.mem_map.1 h1
    exact Or.inr (List.mem_map.2 ⟨p, hp, rfl⟩)
  · rw [List.mem_singleton] at h1
    subst h1
    exact Or.inl rfl

theorem branch_events_bug_kinds {cfg : Config} {llm : String → Option String}
    {rand : Nat → Nat} {ctr : Nat} {log : ActivityLog} {c : Commit} {e : Event}
    (h : ¬ c.lines_changed ≥ cfg.large_commit_line_threshold)
    (he : e ∈ branch_events cfg llm rand ctr log c) :
    e.event = "BUG_OPEN" ∨
      e.event ∈ cfg.bug_event_offsets.map (fun p => p.1) := by
  rw [branch_events_bug cfg llm rand ctr log c h] at he
  rcases List.mem_append.1 he with h1 | h1
  · rw [List.mem_singleton] at h1
    subst h1
    exact Or.inl rfl
  · obtain ⟨p, hp, rfl⟩ := List.mem_map.1 h1
    exact Or.inr (List.mem_map.2 ⟨p, hp, rfl⟩)

theorem process_commit_filter_nonjoin (cfg : Config) (llm : String → Option String)
    (rand : Nat → Nat) (st : LoopState) (c : Commit) {s : String} (hne : s ≠ "DEV_JOIN") :
    (process_commit cfg llm rand st c).2.filter (fun e => e.event == s) =
      (branch_events cfg llm rand st.rand_ctr
        (setRecord st.dev_activity c.author_name
          (applyCommit (lookupDev st.dev_activity c.author_name) c)) c).filter
        (fun e => e.event == s) := by
  rw [process_commit_snd, List.filter_append]
  have hj : (("DEV_JOIN" : String) == s) = false := by
    simp only [beq_eq_false_iff_ne]
    exact fun hh => hne hh.symm
  have h0 : (if ((lookupDev st.dev_activity c.author_name).getD {}).first_commit = none
      then [join_event c] else []).filter (fun e => e.event == s) = [] := by
    split <;> simp [join_event, hj]
  rw [h0, List.nil_append]

theorem mem_process_commit_snd {cfg : Config} {llm : String → Option String}
    {rand : Nat → Nat} {st : LoopState} {c : Commit} {e : Event}
    (he : e ∈ (process_commit cfg llm rand st c).2) :
    e = join_event c ∨
      e ∈ branch_events cfg llm rand st.rand_ctr
        (setRecord st.dev_activity c.author_name
          (applyCommit (lookupDev st.dev_activity c.author_name) c)) c := by
  rw [process_commit_snd] at he
  rcases List.mem_append.1 he with h | h
  · split at h
    · rw [List.mem_singleton] at h
      exact Or.inl h
    · cases h
  · exact Or.inr h

theorem branch_events_mem_propose (cfg : Config) (llm : String → Option String)
    (rand : Nat → Nat) (ctr : Nat) (log : ActivityLog) (c : Commit)
    (h : c.lines_changed ≥ cfg.large_commit_line_threshold) :
    ∃ e ∈ branch_events cfg llm rand ctr log c, e.event = "FEATURE_PROPOSE" := by
  rw [branch_events_feature cfg llm rand ctr log c h]
  refine ⟨_, List.mem_append_right _ (List.mem_singleton.2 rfl), rfl⟩

theorem branch_events_mem_bug_open (cfg : Config) (llm : String → Option String)
    (rand : Nat → Nat) (ctr : Nat) (log : ActivityLog) (c : Commit)
    (h : ¬ c.lines_changed ≥ cfg.large_commit_line_threshold) :
    ∃ e ∈ branch_events cfg llm rand ctr log c, e.event = "BUG_OPEN" := by
  rw [branch_events_bug cfg llm rand ctr log c h]
  refine ⟨_, List.mem_append_left _ (List.mem_singleton.2 rfl), rfl⟩

/-!  Counting branch events over a run. -/

theorem sum_branchCount (cfg : Config) (l : List Commit) :
    (l.map (branchCount cfg)).sum =
      (l.filter (fun c => decide (c.lines_changed ≥ cfg.large_commit_line_threshold))).length *
        (cfg.feature_event_offsets.length + 1) +
      (l.filter (fun c => decide (c.lines_changed < cfg.large_commit_line_threshold))).length *
        (cfg.bug_event_offsets.length + 1) := by
  induction l with
  | nil => simp
  | cons c rest ih =>
      simp only [List.map_cons, List.sum_cons, List.filter_cons, decide_eq_true_eq]
      by_cases h : c.lines_changed ≥ cfg.large_commit_line_threshold
      · have h' : ¬ c.lines_changed < cfg.large_commit_line_threshold := not_lt.2 h
        rw [if_pos h, if_neg h',
          show branchCount cfg c = cfg.feature_event_offsets.length + 1 from by
            rw [branchCount, if_pos h],
          ih, List.length_cons, Nat.add_mul, Nat.one_mul]
        omega
      · have h' : c.lines_changed < cfg.large_commit_line_threshold := not_le.1 h
        rw [if_neg h, if_pos h',
          show branchCount cfg c = cfg.bug_event_offsets.length + 1 from by
            rw [branchCount, if_neg h],
          ih, List.length_cons, Nat.add_mul, Nat.one_mul]
        omega

theorem foldl_applyCommit_first {t : Instant} (cs : List Commit) (r : DevRecord)
    (hf : r.first_commit = some t) {r' : DevRecord}
    (h : List.foldl (fun r c => some (applyCommit r c)) (some r) cs = some r') :
    r'.first_commit = some t := by
  cases cs with
  | nil =>
      simp only [List.foldl_nil, Option.some.injEq] at h
      rw [← h]
      exact hf
  | cons c0 cs' =>
      rw [foldl_applyCommit] at h
      simp only [Option.some.injEq] at h
      rw [← h]
      simp [hf]

/-!  Sample inputs used by the concrete witnesses below. -/

def llm0 : String → Option String := fun _ => none

def rand0 : Nat → Nat := fun _ => 0

def cSmall : Commit :=
  { author_name := "Alice", committed_date := 0, lines_changed := 5,
    message := "Fix typo", hexsha := "aaaaaaaaaa" }

def cLarge : Commit :=
  { author_name := "Bob", committed_date := 86400, lines_changed := 200,
    message := "Big feature", hexsha := "bbbbbbbbbb" }

/-!  Claim theorems. -/

/-- C4, counterexample: with an empty exclusion list and no active candidate,
`pick_other_dev` evaluates `exclude[0]` on an empty list — it raises an
`IndexError` (modelled as `none`) instead of returning "the first element of
the exclusion list", so the claim as stated fails at this input. -/
theorem C4_counterexample :
    active_devs ["Alice"] [] 0 [] 30 = [] ∧
    pick_other_dev ["Alice"] [] 0 [] 30 0 = none := by
  decide

/-- C4 (amended): `pick_other_dev` never returns a member of the exclusion
list when at least one pool member is non-excluded and active; when no such
eligible candidate exists it returns the head of the exclusion list if there
is one (`exclude.head?` — with an empty exclusion list it raises instead of
returning). -/
theorem C4_role_selector (devs exclude : List String) (as_of_day : Instant)
    (dev_activity : ActivityLog) (threshold_days : Int) (choice : Nat) :
    (active_devs devs exclude as_of_day dev_activity threshold_days ≠ [] →
      ∃ r, pick_other_dev devs exclude as_of_day dev_activity threshold_days choice = some r ∧
        r ∉ exclude) ∧
    (active_devs devs exclude as_of_day dev_activity threshold_days = [] →
      pick_other_dev devs exclude as_of_day dev_activity threshold_days choice =
        exclude.head?) :=
  pick_other_dev_spec devs exclude as_of_day dev_activity threshold_days choice

/-- C4, witness: both branches exercised at concrete inputs. -/
theorem C4_witness :
    (active_devs ["Alice", "Bob"] ["Alice"] 0
        [("Bob", { first_commit := some 0, last_commit := some 0,
                   last_commit_id := some "bb" })] 30 ≠ [] ∧
      ∃ r, pick_other_dev ["Alice", "Bob"] ["Alice"] 0
          [("Bob", { first_commit := some 0, last_commit := some 0,
                     last_commit_id := some "bb" })] 30 0 = some r ∧
        r ∉ ["Alice"]) ∧
    (active_devs ["Alice"] ["Alice"] 0 [] 30 = [] ∧
      pick_other_dev ["Alice"] ["Alice"] 0 [] 30 0 = (["Alice"] : List String).head?) :=
  ⟨⟨by decide, (C4_role_selector _ _ _ _ _ _).1 (by decide)⟩,
   ⟨by decide, (C4_role_selector _ _ _ _ _ _).2 (by decide)⟩⟩

/-- C5, counterexample: with an empty developer pool and an empty exclusion
list, `pick_other_dev` does not return a developer name — the fallback
`exclude[0]` raises an `IndexError` (modelled as `none`), so the function is
not total over every exclusion list. -/
theorem C5_counterexample : (pick_other_dev [] [] 0 [] 30 0).isSome = false := by
  decide

/-- C5 (amended): `pick_other_dev` is total — always returns a developer
name — whenever the exclusion list is non-empty, which holds at every call
site in `analyze_repo`, including a single-developer history. -/
theorem C5_total (devs exclude : List String) (as_of_day : Instant)
    (dev_activity : ActivityLog) (threshold_days : Int) (choice : Nat)
    (h : exclude ≠ []) :
    (pick_other_dev devs exclude as_of_day dev_activity threshold_days choice).isSome = true :=
  pick_other_dev_isSome devs exclude as_of_day dev_activity threshold_days choice h

/-- C5, witness: a single-developer history with a non-empty exclusion list. -/
theorem C5_witness :
    (["Bob"] : List String) ≠ [] ∧
    (pick_other_dev ["Bob"] ["Bob"] 0 [] 30 0).isSome = true :=
  ⟨by decide, C5_total ["Bob"] ["Bob"] 0 [] 30 0 (by decide)⟩

/-- C7: `summarize_commit_message` is total (the external call's failure is
absorbed into the `llm` oracle's `none`); it returns the trimmed message
unchanged when the trimmed length is at or below the threshold, and otherwise
either the model-generated title (non-empty, model path enabled and call
succeeded) or the truncation of the message to the threshold length followed
by `"..."`; with the model path disabled the truncation is returned
deterministically. -/
theorem C7_summarizer (cfg : Config) (llm : String → Option String) (msg : String) :
    ((pyStrip msg).length ≤ cfg.commit_message_summary_threshold →
      summarize_commit_message cfg llm msg = pyStrip msg) ∧
    (cfg.commit_message_summary_threshold < (pyStrip msg).length →
      (∃ s, llm (llm_prompt (pyStrip msg)) = some s ∧ pyStrip s ≠ "" ∧
        summarize_commit_message cfg llm msg = pyStrip s) ∨
      summarize_commit_message cfg llm msg =
        msg.take cfg.commit_message_summary_threshold ++ "...") ∧
    (cfg.commit_message_summary_threshold < (pyStrip msg).length →
      cfg.use_llm_summarizer = false →
      summarize_commit_message cfg llm msg =
        msg.take cfg.commit_message_summary_threshold ++ "...") := by
  refine ⟨?_, ?_, ?_⟩
  · intro h
    simp only [summarize_commit_message]
    rw [if_pos h]
  · intro h
    simp only [summarize_commit_message]
    rw [if_neg (not_le.2 h)]
    by_cases hu : cfg.use_llm_summarizer = true
    · rw [if_pos hu]
      cases hr : llm (llm_prompt (pyStrip msg)) with
      | none => exact Or.inr rfl
      | some s =>
          by_cases he : pyStrip s = ""
          · right
            have he' : (pyStrip s == "") = true := by simpa using he
            simp [he']
          · left
            refine ⟨s, rfl, he, ?_⟩
            have he' : (pyStrip s == "") = false := by simpa using he
            simp [he']
    · rw [if_neg hu]
      exact Or.inr rfl
  · intro h hu
    simp only [summarize_commit_message]
    rw [if_neg (not_le.2 h), hu]
    simp

/-- C7, witness: a 60-character message with the model path disabled falls
back to truncation. -/
theorem C7_witness :
    default_config.commit_message_summary_threshold <
      (pyStrip "aaaaaaaaaaaaaaaaaaaaaaaaaaaaaaaaaaaaaaaaaaaaaaaaaaaaaaaaaaaa").length ∧
    default_config.use_llm_summarizer = false ∧
    summarize_commit_message default_config llm0
        "aaaaaaaaaaaaaaaaaaaaaaaaaaaaaaaaaaaaaaaaaaaaaaaaaaaaaaaaaaaa" =
      ("aaaaaaaaaaaaaaaaaaaaaaaaaaaaaaaaaaaaaaaaaaaaaaaaaaaaaaaaaaaa" : String).take
        default_config.commit_message_summary_threshold ++ "..." :=
  ⟨by decide, rfl,
    (C7_summarizer default_config llm0 _).2.2 (by decide) rfl⟩

/-- C8, counterexample: with `max_commits = -1` and two commits, the code
processes one commit (Python `commits[:-1]` drops the last element), which is
more than "the first −1 commits" of the claim — a negative limit neither
takes a prefix of that length nor means "all". -/
theorem C8_counterexample :
    effectiveCommits [cLarge, cSmall] (some (-1)) = [cSmall] ∧
    ¬ ((effectiveCommits [cLarge, cSmall] (some (-1))).length ≤ ((-1 : Int)).toNat) := by
  decide

/-- C8 (amended): when the limit is a positive integer `k`, `analyze_repo`
iterates exactly over the first `k` commits of the oldest-first (reversed)
sequence; an absent (`none`) or zero limit means all commits.  (A negative
limit instead drops the last `-k` commits.) -/
theorem C8_commit_limit (cfg : Config) (llm : String → Option String) (rand : Nat → Nat)
    (cs : List Commit) (k : Int) :
    effectiveCommits cs none = cs.reverse ∧
    effectiveCommits cs (some 0) = cs.reverse ∧
    (0 < k → effectiveCommits cs (some k) = cs.reverse.take k.toNat) ∧
    analyze_repo cfg llm rand cs (some k) =
      eventsOf cfg llm rand initState (effectiveCommits cs (some k)) ++
        (stateOf cfg llm rand initState (effectiveCommits cs (some k))).dev_activity.map
          (leave_event cfg) := by
  refine ⟨rfl, by simp [effectiveCommits], ?_, analyze_repo_eq cfg llm rand cs (some k)⟩
  intro hk
  simp only [effectiveCommits]
  rw [if_neg (by omega : ¬ k = 0)]
  unfold pySliceTo
  rw [if_pos (le_of_lt hk)]

/-- C8, witness: limit `1` keeps exactly the oldest commit. -/
theorem C8_witness :
    (0 : Int) < 1 ∧
    effectiveCommits [cLarge, cSmall] (some 1) =
      ([cLarge, cSmall].reverse).take ((1 : Int)).toNat :=
  ⟨by decide, (C8_commit_limit default_config llm0 rand0 [cLarge, cSmall] 1).2.2.1 (by decide)⟩

theorem not_reserved_ne {s : String} (h : s ∉ reservedKinds) :
    s ≠ "DEV_JOIN" ∧ s ≠ "DEV_LEAVE" ∧ s ≠ "BUG_OPEN" ∧ s ≠ "FEATURE_PROPOSE" := by
  refine ⟨?_, ?_, ?_, ?_⟩ <;> intro hh <;> exact h (by rw [hh]; simp [reservedKinds])

/-- C1: for a commit at or above the large-commit threshold the events
emitted for that commit include `FEATURE_PROPOSE` and exactly one event per
configured feature sub-stage, and no `BUG_OPEN`; below the threshold they
include `BUG_OPEN` and exactly one event per configured bug sub-stage, and no
`FEATURE_PROPOSE`.  (`cfg.Sane`: sub-stage names are distinct and disjoint
from the built-in kinds, as in any real configuration dict.) -/
theorem C1_classification (cfg : Config) (llm : String → Option String) (rand : Nat → Nat)
    (st : LoopState) (c : Commit) (hs : cfg.Sane) :
    (c.lines_changed ≥ cfg.large_commit_line_threshold →
      (∃ e ∈ (process_commit cfg llm rand st c).2, e.event = "FEATURE_PROPOSE") ∧
      (∀ p ∈ cfg.feature_event_offsets,
        ((process_commit cfg llm rand st c).2.filter (fun e => e.event == p.1)).length = 1) ∧
      (∀ e ∈ (process_commit cfg llm rand st c).2, e.event ≠ "BUG_OPEN")) ∧
    (c.lines_changed < cfg.large_commit_line_threshold →
      (∃ e ∈ (process_commit cfg llm rand st c).2, e.event = "BUG_OPEN") ∧
      (∀ p ∈ cfg.bug_event_offsets,
        ((process_commit cfg llm rand st c).2.filter (fun e => e.event == p.1)).length = 1) ∧
      (∀ e ∈ (process_commit cfg llm rand st c).2, e.event ≠ "FEATURE_PROPOSE")) := by
  obtain ⟨hfnd, hbnd, hfres, hbres⟩ := hs
  constructor
  · intro h
    refine ⟨?_, ?_, ?_⟩
    · obtain ⟨e, he, hev⟩ := branch_events_mem_propose cfg llm rand st.rand_ctr
        (setRecord st.dev_activity c.author_name
          (applyCommit (lookupDev st.dev_activity c.author_name) c)) c h
      refine ⟨e, ?_, hev⟩
      rw [process_commit_snd]
      exact List.mem_append_right _ he
    · intro p hp
      obtain ⟨hnej, _, _, hnep⟩ := not_reserved_ne (hfres p hp)
      rw [process_commit_filter_nonjoin cfg llm rand st c hnej,
        branch_events_filter_feature cfg llm rand st.rand_ctr _ c h hfnd hp hnep]
      rfl
    · intro e he
      rcases mem_process_commit_snd he with h1 | h1
      · rw [h1]
        simp [join_event]
      · rcases branch_events_feature_kinds h h1 with h2 | h2
        · rw [h2]; decide
        · obtain ⟨p, hp, hpe⟩ := List.mem_map.1 h2
          rw [← hpe]
          exact (not_reserved_ne (hfres p hp)).2.2.1
  · intro h
    have h' : ¬ c.lines_changed ≥ cfg.large_commit_line_threshold := not_le.2 h
    refine ⟨?_, ?_, ?_⟩
    · obtain ⟨e, he, hev⟩ := branch_events_mem_bug_open cfg llm rand st.rand_ctr
        (setRecord st.dev_activity c.author_name
          (applyCommit (lookupDev st.dev_activity c.author_name) c)) c h'
      refine ⟨e, ?_, hev⟩
      rw [process_commit_snd]
      exact List.mem_append_right _ he
    · intro p hp
      obtain ⟨hnej, _, hnbo, _⟩ := not_reserved_ne (hbres p hp)
      rw [process_commit_filter_nonjoin cfg llm rand st c hnej,
        branch_events_filter_bug cfg llm rand st.rand_ctr _ c h' hbnd hp hnbo]
      rfl
    · intro e he
      rcases mem_process_commit_snd he with h1 | h1
      · rw [h1]
        simp [join_event]
      · rcases branch_events_bug_kinds h' h1 with h2 | h2
        · rw [h2]; decide
        · obtain ⟨p, hp, hpe⟩ := List.mem_map.1 h2
          rw [← hpe]
          exact (not_reserved_ne (hbres p hp)).2.2.2

/-- C1, witness: the large sample commit on the feature side. -/
theorem C1_witness :
    default_config.Sane ∧
    cLarge.lines_changed ≥ default_config.large_commit_line_threshold ∧
    ((∃ e ∈ (process_commit default_config llm0 rand0 initState cLarge).2,
        e.event = "FEATURE_PROPOSE") ∧
      (∀ p ∈ default_config.feature_event_offsets,
        ((process_commit default_config llm0 rand0 initState cLarge).2.filter
          (fun e => e.event == p.1)).length = 1) ∧
      (∀ e ∈ (process_commit default_config llm0 rand0 initState cLarge).2,
        e.event ≠ "BUG_OPEN")) :=
  ⟨by decide, by decide,
    (C1_classification default_config llm0 rand0 initState cLarge (by decide)).1 (by decide)⟩

/-- C6: every configured feature sub-stage yields exactly one event at the
commit date plus its offset, with the developer drawn from the fixed
stage-to-role dict (plan goes to the planner, design to the designer, the
review stages to the reviewer, PR-open and PR-close to the proposer, any
unmapped name defaulting to the proposer `dictGetStr ... c.author_name`);
every configured bug sub-stage yields exactly one event at the commit date
plus its offset, with the reviewer on stages whose name contains `REVIEW`
and the fixer (the author) otherwise. -/
theorem C6_stage_roles (cfg : Config) (llm : String → Option String) (rand : Nat → Nat)
    (st : LoopState) (c : Commit) (hs : cfg.Sane) :
    (c.lines_changed ≥ cfg.large_commit_line_threshold →
      ∃ planner designer reviewer : String,
        ∀ p ∈ cfg.feature_event_offsets,
          (process_commit cfg llm rand st c).2.filter (fun e => e.event == p.1) =
            [({ event := p.1,
                date := addDays c.committed_date p.2,
                developer := some (dictGetStr
                  (feature_role_map c.author_name planner designer reviewer) p.1
                  c.author_name),
                feature := some (summarize_commit_message cfg llm (pyStrip c.message)),
                source_commit_id := some (short_id c) } : Event)]) ∧
    (c.lines_changed < cfg.large_commit_line_threshold →
      ∃ reviewer : String,
        ∀ p ∈ cfg.bug_event_offsets,
          (process_commit cfg llm rand st c).2.filter (fun e => e.event == p.1) =
            [({ event := p.1,
                date := addDays c.committed_date p.2,
                developer := some (if is_review_stage p.1 then reviewer
                  else c.author_name),
                bug := some (summarize_commit_message cfg llm (pyStrip c.message)),
                source_commit_id := some (short_id c) } : Event)]) := by
  obtain ⟨hfnd, hbnd, hfres, hbres⟩ := hs
  constructor
  · intro h
    refine ⟨plannerOf cfg rand st.rand_ctr
        (setRecord st.dev_activity c.author_name
          (applyCommit (lookupDev st.dev_activity c.author_name) c)) c,
      designerOf cfg rand st.rand_ctr
        (setRecord st.dev_activity c.author_name
          (applyCommit (lookupDev st.dev_activity c.author_name) c)) c,
      reviewerOf cfg rand st.rand_ctr
        (setRecord st.dev_activity c.author_name
          (applyCommit (lookupDev st.dev_activity c.author_name) c)) c, ?_⟩
    intro p hp
    obtain ⟨hnej, _, _, hnep⟩ := not_reserved_ne (hfres p hp)
    rw [process_commit_filter_nonjoin cfg llm rand st c hnej]
    exact branch_events_filter_feature cfg llm rand st.rand_ctr _ c h hfnd hp hnep
  · intro h
    have h' : ¬ c.lines_changed ≥ cfg.large_commit_line_threshold := not_le.2 h
    refine ⟨bugReviewerOf cfg rand st.rand_ctr
        (setRecord st.dev_activity c.author_name
          (applyCommit (lookupDev st.dev_activity c.author_name) c)) c, ?_⟩
    intro p hp
    obtain ⟨hnej, _, hnbo, _⟩ := not_reserved_ne (hbres p hp)
    rw [process_commit_filter_nonjoin cfg llm rand st c hnej]
    exact branch_events_filter_bug cfg llm rand st.rand_ctr _ c h' hbnd hp hnbo

/-- C6, witness: the small sample commit on the bug side. -/
theorem C6_witness :
    default_config.Sane ∧
    cSmall.lines_changed < default_config.large_commit_line_threshold ∧
    (∃ reviewer : String,
      ∀ p ∈ default_config.bug_event_offsets,
        (process_commit default_config llm0 rand0 initState cSmall).2.filter
            (fun e => e.event == p.1) =
          [({ event := p.1,
              date := addDays cSmall.committed_date p.2,
              developer := some (if is_review_stage p.1 then reviewer
                else cSmall.author_name),
              bug := some (summarize_commit_message default_config llm0
                (pyStrip cSmall.message)),
              source_commit_id := some (short_id cSmall) } : Event)]) :=
  ⟨by decide, by decide,
    (C6_stage_roles default_config llm0 rand0 initState cSmall (by decide)).2 (by decide)⟩

theorem final_record (cfg : Config) (llm : String → Option String) (rand : Nat → Nat)
    (l : List Commit) (a : String) (cf : Commit) (rest : List Commit)
    (hcb : commitsBy l a = cf :: rest) :
    lookupDev (stateOf cfg llm rand initState l).dev_activity a =
      some { first_commit := some cf.committed_date,
             last_commit := some ((rest.getLastD cf).committed_date),
             last_commit_id := some (short_id (rest.getLastD cf)) } := by
  rw [lookupDev_stateOf, hcb,
    show lookupDev initState.dev_activity a = none from rfl, foldl_applyCommit]
  simp

theorem final_keys_nodup (cfg : Config) (llm : String → Option String) (rand : Nat → Nat)
    (l : List Commit) :
    ((stateOf cfg llm rand initState l).dev_activity.map (fun p => p.1)).Nodup := by
  rw [keys_stateOf]
  exact foldAuthors_nodup _ l (by simp [initState])

/-- C2: over the commits `analyze_repo` actually processes, the number of
`DEV_JOIN` events equals the number of distinct author names, every
`DEV_JOIN` event carries the timestamp of its developer's first (oldest
first) processed commit, and every author appearing in the processed
sequence has a `DEV_JOIN` event. -/
theorem C2_dev_join (cfg : Config) (llm : String → Option String) (rand : Nat → Nat)
    (cs : List Commit) (lim : Option Int) (hs : cfg.Sane)
    (_hne : effectiveCommits cs lim ≠ []) :
    ((analyze_repo cfg llm rand cs lim).filter (fun e => e.event == "DEV_JOIN")).length =
      ((effectiveCommits cs lim).map (fun c => c.author_name)).dedup.length ∧
    (∀ e ∈ analyze_repo cfg llm rand cs lim, e.event = "DEV_JOIN" →
      ∃ a c', e.developer = some a ∧
        (effectiveCommits cs lim).find? (fun x => x.author_name == a) = some c' ∧
        e.date = c'.committed_date) ∧
    (∀ a ∈ (effectiveCommits cs lim).map (fun c => c.author_name),
      ∃ e ∈ analyze_repo cfg llm rand cs lim, e.event = "DEV_JOIN" ∧
        e.developer = some a) := by
  have hjoins : (analyze_repo cfg llm rand cs lim).filter (fun e => e.event == "DEV_JOIN") =
      (newAuthorCommits [] (effectiveCommits cs lim)).map join_event := by
    rw [analyze_repo_eq, List.filter_append]
    have h2 : ((stateOf cfg llm rand initState (effectiveCommits cs lim)).dev_activity.map
        (leave_event cfg)).filter (fun e => e.event == "DEV_JOIN") = [] := by
      rw [List.filter_eq_nil_iff]
      intro e he
      obtain ⟨p, _, rfl⟩ := List.mem_map.1 he
      simp [leave_event]
    have h1 := eventsOf_filter_join cfg llm rand hs (effectiveCommits cs lim)
      initState goodState_init
    rw [show initState.dev_activity.map (fun p => p.1) = [] from rfl] at h1
    rw [h2, List.append_nil, h1]
  refine ⟨?_, ?_, ?_⟩
  · rw [hjoins, List.length_map]
    have h3 := newAuthorCommits_length [] (effectiveCommits cs lim)
    simp only [List.length_nil, Nat.add_zero] at h3
    rw [h3, foldAuthors_length]
  · intro e he hev
    have hmem : e ∈ (analyze_repo cfg llm rand cs lim).filter
        (fun e => e.event == "DEV_JOIN") :=
      List.mem_filter.2 ⟨he, by simp [hev]⟩
    rw [hjoins] at hmem
    obtain ⟨c', hc', rfl⟩ := List.mem_map.1 hmem
    exact ⟨c'.author_name, c', rfl, newAuthorCommits_first hc', rfl⟩
  · intro a ha
    obtain ⟨c', hc', hca⟩ := newAuthorCommits_covers ha (List.not_mem_nil a)
    refine ⟨join_event c', ?_, rfl, by rw [show (join_event c').developer =
      some c'.author_name from rfl, hca]⟩
    have hm : join_event c' ∈ (analyze_repo cfg llm rand cs lim).filter
        (fun e => e.event == "DEV_JOIN") := by
      rw [hjoins]
      exact List.mem_map.2 ⟨c', hc', rfl⟩
    exact List.mem_of_mem_filter hm

/-- C2, witness: a two-commit run with two distinct authors. -/
theorem C2_witness :
    default_config.Sane ∧
    effectiveCommits [cLarge, cSmall] none ≠ [] ∧
    (((analyze_repo default_config llm0 rand0 [cLarge, cSmall] none).filter
        (fun e => e.event == "DEV_JOIN")).length =
      ((effectiveCommits [cLarge, cSmall] none).map (fun c => c.author_name)).dedup.length ∧
    (∀ e ∈ analyze_repo default_config llm0 rand0 [cLarge, cSmall] none,
      e.event = "DEV_JOIN" →
      ∃ a c', e.developer = some a ∧
        (effectiveCommits [cLarge, cSmall] none).find? (fun x => x.author_name == a) =
          some c' ∧
        e.date = c'.committed_date) ∧
    (∀ a ∈ (effectiveCommits [cLarge, cSmall] none).map (fun c => c.author_name),
      ∃ e ∈ analyze_repo default_config llm0 rand0 [cLarge, cSmall] none,
        e.event = "DEV_JOIN" ∧ e.developer = some a)) :=
  ⟨by decide, by decide,
    C2_dev_join default_config llm0 rand0 [cLarge, cSmall] none (by decide) (by decide)⟩

/-- C3: every developer appearing in the processed commits gets exactly one
`DEV_LEAVE` event, dated at that developer's last-seen commit timestamp plus
the configured inactivity window, carrying the short id of the developer's
chronologically last processed commit; an empty processed list yields the
empty event list. -/
theorem C3_dev_leave (cfg : Config) (llm : String → Option String) (rand : Nat → Nat)
    (cs : List Commit) (lim : Option Int) (hs : cfg.Sane) :
    (∀ a ∈ (effectiveCommits cs lim).map (fun c => c.author_name),
      ∃ cl : Commit,
        (commitsBy (effectiveCommits cs lim) a).getLast? = some cl ∧
        (analyze_repo cfg llm rand cs lim).filter
            (fun e => e.event == "DEV_LEAVE" && e.developer == some a) =
          [({ event := "DEV_LEAVE",
              date := addDays cl.committed_date cfg.developer_leave_inactivity_days,
              developer := some a,
              last_commit_date := some cl.committed_date,
              last_commit_id := some (short_id cl) } : Event)]) ∧
    (effectiveCommits cs lim = [] → analyze_repo cfg llm rand cs lim = []) := by
  constructor
  · intro a ha
    obtain ⟨c0, hc0, hc0a⟩ := List.mem_map.1 ha
    cases hcb : commitsBy (effectiveCommits cs lim) a with
    | nil =>
        exfalso
        have hmem : c0 ∈ commitsBy (effectiveCommits cs lim) a :=
          List.mem_filter.2 ⟨hc0, by simp [hc0a]⟩
        rw [hcb] at hmem
        cases hmem
    | cons cf rest =>
        refine ⟨rest.getLastD cf, ?_, ?_⟩
        · simp [List.getLast?_cons, List.getLastD_eq_getLast?]
        · have hrec := final_record cfg llm rand (effectiveCommits cs lim) a cf rest hcb
          have hpair := lookupDev_mem hrec
          have hnd := final_keys_nodup cfg llm rand (effectiveCommits cs lim)
          rw [analyze_repo_eq, List.filter_append]
          have hev : (eventsOf cfg llm rand initState (effectiveCommits cs lim)).filter
              (fun e => e.event == "DEV_LEAVE" && e.developer == some a) = [] := by
            rw [List.filter_eq_nil_iff]
            intro e he
            have hnl := eventsOf_no_leave cfg llm rand hs _ _ he
            simp only [Bool.and_eq_true, beq_iff_eq, not_and]
            intro h1
            exact absurd h1 hnl
          rw [hev, List.nil_append, filter_of_map]
          have hcongr : (stateOf cfg llm rand initState
                (effectiveCommits cs lim)).dev_activity.filter
                (fun p => (leave_event cfg p).event == "DEV_LEAVE" &&
                  (leave_event cfg p).developer == some a) =
              (stateOf cfg llm rand initState
                (effectiveCommits cs lim)).dev_activity.filter (fun p => p.1 == a) := by
            apply List.filter_congr
            intro x _
            simp [leave_event]
          rw [hcongr]
          have hfk : (stateOf cfg llm rand initState
                (effectiveCommits cs lim)).dev_activity.filter (fun p => p.1 == a) =
              [(a, { first_commit := some cf.committed_date,
                     last_commit := some ((rest.getLastD cf).committed_date),
                     last_commit_id := some (short_id (rest.getLastD cf)) })] :=
            filter_key_of_nodup hnd hpair
          rw [hfk]
          simp [leave_event]
  · intro h
    rw [analyze_repo_eq, h]
    simp [eventsOf, stateOf, initState]

/-- C3, witness: a two-commit run with two developers. -/
theorem C3_witness :
    default_config.Sane ∧
    ((∀ a ∈ (effectiveCommits [cLarge, cSmall] none).map (fun c => c.author_name),
      ∃ cl : Commit,
        (commitsBy (effectiveCommits [cLarge, cSmall] none) a).getLast? = some cl ∧
        (analyze_repo default_config llm0 rand0 [cLarge, cSmall] none).filter
            (fun e => e.event == "DEV_LEAVE" && e.developer == some a) =
          [({ event := "DEV_LEAVE",
              date := addDays cl.committed_date
                default_config.developer_leave_inactivity_days,
              developer := some a,
              last_commit_date := some cl.committed_date,
              last_commit_id := some (short_id cl) } : Event)]) ∧
    (effectiveCommits [cLarge, cSmall] none = [] →
      analyze_repo default_config llm0 rand0 [cLarge, cSmall] none = [])) :=
  ⟨by decide, C3_dev_leave default_config llm0 rand0 [cLarge, cSmall] none (by decide)⟩

/-- C9: at every point of a run over an oldest-first (timestamp-sorted)
commit list — i.e. after any prefix `l1` of the processed list `l1 ++ l2` —
a developer's record satisfies `first_commit ≤ last_commit` once both are
set (they are, together); it is absent entirely until the author's first
commit is processed; and once `first_commit` is set it never changes as
further commits are processed. -/
theorem C9_activity_invariant (cfg : Config) (llm : String → Option String)
    (rand : Nat → Nat) (l1 l2 : List Commit)
    (hsorted : (l1 ++ l2).Pairwise (fun c1 c2 => c1.committed_date ≤ c2.committed_date)) :
    (∀ a r, lookupDev (stateOf cfg llm rand initState l1).dev_activity a = some r →
      ∀ t1 t2, r.first_commit = some t1 → r.last_commit = some t2 → t1 ≤ t2) ∧
    (∀ a, commitsBy l1 a = [] →
      lookupDev (stateOf cfg llm rand initState l1).dev_activity a = none) ∧
    (∀ a r t, lookupDev (stateOf cfg llm rand initState l1).dev_activity a = some r →
      r.first_commit = some t →
      ∀ l2a l2b, l2 = l2a ++ l2b →
      ∀ r', lookupDev (stateOf cfg llm rand initState (l1 ++ l2a)).dev_activity a = some r' →
        r'.first_commit = some t) := by
  refine ⟨?_, ?_, ?_⟩
  · intro a r hr t1 t2 ht1 ht2
    cases hcb : commitsBy l1 a with
    | nil =>
        rw [lookupDev_stateOf, hcb, List.foldl_nil,
          show lookupDev initState.dev_activity a = none from rfl] at hr
        cases hr
    | cons cf rest =>
        have hrec := final_record cfg llm rand l1 a cf rest hcb
        rw [hr] at hrec
        simp only [Option.some.injEq] at hrec
        rw [hrec] at ht1 ht2
        simp only [Option.some.injEq] at ht1 ht2
        rw [← ht1, ← ht2]
        have hs1 : l1.Pairwise (fun c1 c2 => c1.committed_date ≤ c2.committed_date) :=
          List.Pairwise.sublist (List.sublist_append_left l1 l2) hsorted
        have hsby : (commitsBy l1 a).Pairwise
            (fun c1 c2 => c1.committed_date ≤ c2.committed_date) :=
          List.Pairwise.sublist (List.filter_sublist l1) hs1
        rw [hcb] at hsby
        have hmem : rest.getLastD cf ∈ cf :: rest := List.getLastD_mem_cons rest cf
        rcases List.mem_cons.1 hmem with hm | hm
        · rw [hm]
        · exact (List.pairwise_cons.1 hsby).1 _ hm
  · intro a hcb
    rw [lookupDev_stateOf, hcb, List.foldl_nil]
    rfl
  · intro a r t hr ht l2a l2b hsplit r' hr'
    rw [lookupDev_stateOf,
      show commitsBy (l1 ++ l2a) a = commitsBy l1 a ++ commitsBy l2a a from by
        simp [commitsBy, List.filter_append],
      List.foldl_append, ← lookupDev_stateOf cfg llm rand initState l1 a, hr] at hr'
    exact foldl_applyCommit_first _ r ht hr'

/-- C9, witness: a sorted two-commit run. -/
theorem C9_witness :
    ([cSmall] ++ [cLarge]).Pairwise (fun c1 c2 => c1.committed_date ≤ c2.committed_date) ∧
    ((∀ a r, lookupDev (stateOf default_config llm0 rand0 initState
        [cSmall]).dev_activity a = some r →
      ∀ t1 t2, r.first_commit = some t1 → r.last_commit = some t2 → t1 ≤ t2) ∧
    (∀ a, commitsBy [cSmall] a = [] →
      lookupDev (stateOf default_config llm0 rand0 initState [cSmall]).dev_activity a =
        none) ∧
    (∀ a r t, lookupDev (stateOf default_config llm0 rand0 initState
        [cSmall]).dev_activity a = some r →
      r.first_commit = some t →
      ∀ l2a l2b, [cLarge] = l2a ++ l2b →
      ∀ r', lookupDev (stateOf default_config llm0 rand0 initState
          ([cSmall] ++ l2a)).dev_activity a = some r' →
        r'.first_commit = some t)) :=
  ⟨by decide,
    C9_activity_invariant default_config llm0 rand0 [cSmall] [cLarge] (by decide)⟩

/-- C10: the length of the returned event list is the number of
feature-classified commits times (number of feature offsets + 1), plus the
number of bug-classified commits times (number of bug offsets + 1), plus
twice the number of distinct author names (one `DEV_JOIN` and one
`DEV_LEAVE` per author). -/
theorem C10_event_count (cfg : Config) (llm : String → Option String) (rand : Nat → Nat)
    (cs : List Commit) (lim : Option Int) :
    (analyze_repo cfg llm rand cs lim).length =
      ((effectiveCommits cs lim).filter
          (fun c => decide (c.lines_changed ≥ cfg.large_commit_line_threshold))).length *
        (cfg.feature_event_offsets.length + 1) +
      ((effectiveCommits cs lim).filter
          (fun c => decide (c.lines_changed < cfg.large_commit_line_threshold))).length *
        (cfg.bug_event_offsets.length + 1) +
      2 * ((effectiveCommits cs lim).map (fun c => c.author_name)).dedup.length := by
  rw [analyze_repo_eq, List.length_append, List.length_map,
    eventsOf_length cfg llm rand (effectiveCommits cs lim) initState goodState_init,
    sum_branchCount]
  have hkeys : (stateOf cfg llm rand initState (effectiveCommits cs lim)).dev_activity.length =
      ((effectiveCommits cs lim).map (fun c => c.author_name)).dedup.length := by
    have h2 : (stateOf cfg llm rand initState
          (effectiveCommits cs lim)).dev_activity.length =
        ((stateOf cfg llm rand initState (effectiveCommits cs lim)).dev_activity.map
          (fun p => p.1)).length := (List.length_map _ _).symm
    rw [h2, keys_stateOf, show initState.dev_activity.map (fun p => p.1) = [] from rfl,
      foldAuthors_length]
  have hjoins : (newAuthorCommits (initState.dev_activity.map (fun p => p.1))
        (effectiveCommits cs lim)).length =
      ((effectiveCommits cs lim).map (fun c => c.author_name)).dedup.length := by
    rw [show initState.dev_activity.map (fun p => p.1) = [] from rfl]
    have h3 := newAuthorCommits_length [] (effectiveCommits cs lim)
    simp only [List.length_nil, Nat.add_zero] at h3
    rw [h3, foldAuthors_length]
  rw [hjoins, hkeys]
  omega

end TimelineGen
